import Mathlib

/-!
Verification of the TOON encoding engine
(`src/tokeneff/formatters/toon_formatter.py`).

Python strings are modelled as `List Char`; Python `None`, `bool`, `int`,
`float`, `str`, `list`, `dict` become the constructors of `Value`.  A Python
`float` is carried abstractly as the character list produced by `repr` (the
shortest round-trip decimal form); the formatter's own post-processing of that
text is modelled faithfully.  Python exceptions are modelled as `Option.none`;
the recursion of `_compact` consumes one unit of fuel per call, so "no result
at any fuel" corresponds to a recursion that never returns (a `RecursionError`
at runtime).
-/

namespace Toon

/-- The normalized value tree consumed by the formatter (spec section 3). -/
inductive Value where
  | null : Value
  | bool (b : Bool) : Value
  | int (n : Int) : Value
  | float (r : List Char) : Value
  | str (s : List Char) : Value
  | arr (xs : List Value) : Value
  | obj (kvs : List (List Char × Value)) : Value

instance : Inhabited Value := ⟨Value.null⟩

/-- Recognized options of `ToonFormatter.format` (lines 47-50). -/
structure FormatOptions where
  delimiter : List Char := [',']
  indent : Nat := 2
  key_folding : Bool := false

/-- The `strict_fallback` option (line 50). -/
inductive StrictFallback where
  | nofb : StrictFallback
  | json : StrictFallback
  | compactfb : StrictFallback

/-- `" " * n`. -/
def spaces (n : Nat) : List Char := List.replicate n ' '

/-- Decimal digit character for `d < 10`. -/
def digitChar (d : Nat) : Char := Char.ofNat (48 + d)

/-- Decimal rendering of a natural number (Python `str` on a non-negative
`int`), with fuel to keep the recursion structural. -/
def natCharsAux : Nat → Nat → List Char
  | 0, _ => []
  | fuel + 1, n =>
    if n < 10 then [digitChar n] else natCharsAux fuel (n / 10) ++ [digitChar (n % 10)]

/-- Python `str(n)` for a non-negative integer. -/
def natChars (n : Nat) : List Char := natCharsAux (n + 1) n

/-- Python `str(n)` for an integer. -/
def intChars (n : Int) : List Char :=
  if n < 0 then '-' :: natChars n.natAbs else natChars n.natAbs

/-- Python `s.replace(old, new)` for a non-empty `old`, with fuel
(`fuel = s.length` suffices); scans left to right, non-overlapping. -/
def pyReplaceAux (pat rep : List Char) : Nat → List Char → List Char
  | _, [] => []
  | 0, s => s
  | fuel + 1, c :: rest =>
    if pat.isPrefixOf (c :: rest) then
      rep ++ pyReplaceAux pat rep fuel (List.drop (pat.length - 1) rest)
    else
      c :: pyReplaceAux pat rep fuel rest

/-- Python `s.replace(old, new)`.  For an empty `old`, Python inserts `new`
before every character and at the end. -/
def pyReplace (s pat rep : List Char) : List Char :=
  if pat.isEmpty then rep ++ s.flatMap (fun c => c :: rep)
  else pyReplaceAux pat rep s.length s

/-- Effectful map over a list in the `Option` monad, written out structurally:
models a Python loop whose body may raise, stopping at the first failure. -/
def mapMO (f : α → Option β) : List α → Option (List β)
  | [] => some []
  | a :: l => (f a).bind (fun b => (mapMO f l).map (fun bs => b :: bs))

/-- Python substring containment `pat in s`. -/
def containsSub (pat : List Char) : List Char → Bool
  | [] => pat.isEmpty
  | c :: rest => pat.isPrefixOf (c :: rest) || containsSub pat rest

/-- `_is_primitive` (lines 52-53): `None`, `str`, `bool`, `int`, `float`. -/
def isPrimitive : Value → Bool
  | .arr _ => false
  | .obj _ => false
  | _ => true

/-- `_valid_identifier` (lines 55-60): non-empty, every character (with
underscores replaced) alphanumeric, first character a letter or underscore.
The alphanumeric test is modelled over ASCII. -/
def validIdentifier (s : List Char) : Bool :=
  match s with
  | [] => false
  | c :: _ =>
    (s.map (fun ch => if ch = '_' then 'a' else ch)).all Char.isAlphanum
      && (c.isAlpha || c == '_')

/-- `_escape_and_quote_string` (lines 62-81), with the replacements applied in
the source's order. -/
def escapeAndQuoteString (delim : List Char) (s : List Char) : List Char :=
  let specials : List (List Char) := [delim, [':'], ['\n'], ['\r'], ['"'], ['\\']]
  let esc := pyReplace s ['\\'] ['\\', '\\']
  let esc := pyReplace esc [':'] ['\\', ':']
  let esc := pyReplace esc delim ('\\' :: delim)
  let esc := pyReplace esc ['\n'] ['\\', 'n']
  let esc := pyReplace esc ['\r'] ['\\', 'r']
  let needsQuote :=
    s.head? == some ' ' || s.getLast? == some ' '
      || specials.any (fun ch => containsSub ch s) || s.isEmpty
  if needsQuote then
    let esc2 := pyReplace esc ['"'] ['\\', '"']
    '"' :: esc2 ++ ['"']
  else esc

/-- `_compact_primitive` (lines 83-98).  A non-primitive argument makes the
Python code call string methods on a non-string and raise: `none`. -/
def compactPrimitive (delim : List Char) : Value → Option (List Char)
  | .null => some ("null".data)
  | .bool b => some (if b then ("true".data) else ("false".data))
  | .int n => some (intChars n)
  | .float r => some (if ['.', '0'].isSuffixOf r then r.take (r.length - 2) else r)
  | .str s => some (escapeAndQuoteString delim s)
  | .arr _ => none
  | .obj _ => none

/-- `_is_uniform_array_of_primitives` (lines 100-101). -/
def isUniformArrayOfPrimitives (xs : List Value) : Bool :=
  xs.all isPrimitive

/-- Keys of an object value, in insertion order. -/
def keysOf : Value → List (List Char)
  | .obj kvs => kvs.map Prod.fst
  | _ => []

/-- Values of an object value, in insertion order. -/
def valuesOf : Value → List Value
  | .obj kvs => kvs.map Prod.snd
  | _ => []

/-- `isinstance(x, dict)`. -/
def isDict : Value → Bool
  | .obj _ => true
  | _ => false

/-- Python set equality of two key lists (`set(a) == set(b)`). -/
def setEq (a b : List (List Char)) : Bool :=
  a.all (fun x => b.contains x) && b.all (fun x => a.contains x)

/-- `_is_uniform_array_of_objects` (lines 103-119): non-empty, all items
dicts, all key sets equal to the first item's, all values primitive. -/
def isUniformArrayOfObjects (xs : List Value) : Bool :=
  match xs with
  | [] => false
  | x0 :: _ =>
    if !(xs.all isDict) then false
    else if xs.any (fun y => !(setEq (keysOf y) (keysOf x0))) then false
    else xs.all (fun item => (valuesOf item).all isPrimitive)

/-- Python `item[f]` on a dict: first binding of the key, `none` a `KeyError`. -/
def getKey : Value → List Char → Option Value
  | .obj kvs, f => List.lookup f kvs
  | _, _ => none

/-- The `while` loop of `_fold_keys` (lines 129-136): descend single-key
objects whose key is a valid identifier, accumulating the keys, and return the
accumulated keys together with the terminal node. -/
def foldChain : Value → List (List Char) × Value
  | .obj [(k, v)] =>
    if validIdentifier k then
      let p := foldChain v
      (k :: p.1, p.2)
    else ([], .obj [(k, v)])
  | v => ([], v)

/-- Key rendering inside `_compact` (lines 159-162): a valid identifier is
used verbatim, anything else goes through the escaping routine. -/
def keyReprF (delim : List Char) (k : List Char) : List Char :=
  if validIdentifier k then k else escapeAndQuoteString delim k

/-- Python `splitlines()` for text whose line breaks are `\n` (the only line
break the encoder emits): no trailing empty line for a trailing newline. -/
def splitOnNl : List Char → List (List Char)
  | [] => []
  | '\n' :: rest => [] :: splitOnNl rest
  | c :: rest =>
    match splitOnNl rest with
    | [] => [[c]]
    | l :: ls => (c :: l) :: ls

/-- `_compact` (lines 145-235).  The first argument is fuel: each Python
call of `_compact` consumes one unit, `none` models a call that raises
(including `RecursionError` when the fuel is exhausted).  The second `Nat`
is the nesting `level`.

The object branch first applies `_fold_keys` when `key_folding` is set
(lines 150-155); the source guard `folded_key and folded_val is not obj`
is modelled as "at least one key was accumulated": when no key is
accumulated `folded_key` is `None`, and when one is, `folded_val` is a
proper descendant of the (acyclic) tree and so never the same object.
Entries are then rendered in order (lines 157-207): array values inline
(tabular with a brace header and no trailing colon, uniform-primitive on
one line, otherwise a dash block whose non-primitive elements recurse at
`level + 2`); object values recurse at `level + 1` and each produced line
is re-indented unless it already starts with the deeper indent; primitive
values render on one line.  A top-level array follows lines 212-232
(tabular header there carries a trailing colon), a top-level primitive is
just its text. -/
def compact (cfg : FormatOptions) : Nat → Nat → Value → Option (List Char)
  | 0, _, _ => none
  | fuel + 1, level, v =>
    let delim := cfg.delimiter
    let sp := spaces (cfg.indent * level)
    let ind1 := spaces (cfg.indent * (level + 1))
    match v with
    | .obj kvs =>
      match (if cfg.key_folding then foldChain (.obj kvs) else ([], .obj kvs)) with
      | (k0 :: ks, cur) =>
        compact cfg fuel level (.obj [(List.intercalate ['.'] (k0 :: ks), cur)])
      | ([], _) =>
        (mapMO (fun (kv : List Char × Value) =>
          let keyRepr := keyReprF delim kv.1
          match kv.2 with
          | .arr xs =>
            if isUniformArrayOfObjects xs then
              match xs with
              | [] => none
              | x0 :: _ =>
                let fields := keysOf x0
                (mapMO (fun item =>
                    (mapMO (fun f => (getKey item f).bind (compactPrimitive delim)) fields).map
                      (fun cells => ind1 ++ List.intercalate delim cells)) xs).map
                  (fun rows =>
                    (sp ++ keyRepr ++ ('[' :: natChars xs.length) ++ (']' :: '{' :: List.intercalate [','] fields) ++ ['}']) :: rows)
            else if isUniformArrayOfPrimitives xs then
              (mapMO (compactPrimitive delim) xs).map
                (fun cells => [sp ++ keyRepr ++ ('[' :: natChars xs.length) ++ (']' :: ':' :: ' ' :: List.intercalate delim cells)])
            else
              (mapMO (fun el =>
                  if isPrimitive el then
                    (compactPrimitive delim el).map (fun t => ind1 ++ ('-' :: ' ' :: t))
                  else
                    (compact cfg fuel (level + 2) el).map (fun t => ind1 ++ ('-' :: ' ' :: t))) xs).map
                (fun items => (sp ++ keyRepr ++ ('[' :: natChars xs.length) ++ [']', ':']) :: items)
          | .obj kvs2 =>
            (compact cfg fuel (level + 1) (.obj kvs2)).map (fun nested =>
              (sp ++ keyRepr ++ [':']) ::
              (splitOnNl nested).map (fun (ln : List Char) =>
                if ln.all (fun c => c.isWhitespace) then ind1 ++ ln
                else if ind1.isPrefixOf ln then ln else ind1 ++ ln))
          | p => (compactPrimitive delim p).map (fun t => [sp ++ keyRepr ++ (':' :: ' ' :: t)]))
          kvs).map
          (fun (liness : List (List (List Char))) => List.intercalate ['\n'] liness.flatten)
    | .arr xs =>
      if isUniformArrayOfObjects xs then
        match xs with
        | [] => none
        | x0 :: _ =>
          let fields := keysOf x0
          (mapMO (fun item =>
              (mapMO (fun f => (getKey item f).bind (compactPrimitive delim)) fields).map
                (fun cells => ind1 ++ List.intercalate delim cells)) xs).map
            (fun rows =>
              List.intercalate ['\n']
                ((sp ++ ('[' :: natChars xs.length) ++ (']' :: '{' :: List.intercalate [','] fields) ++ ['}', ':']) :: rows))
      else if isUniformArrayOfPrimitives xs then
        (mapMO (compactPrimitive delim) xs).map
          (fun cells => sp ++ ('[' :: natChars xs.length) ++ (']' :: ':' :: ' ' :: List.intercalate delim cells))
      else
        (mapMO (fun el =>
            if isPrimitive el then
              (compactPrimitive delim el).map (fun t => ind1 ++ ('-' :: ' ' :: t))
            else
              (compact cfg fuel (level + 2) el).map (fun t => ind1 ++ ('-' :: ' ' :: t))) xs).map
          (fun items => List.intercalate ['\n'] ((sp ++ ('[' :: natChars xs.length) ++ [']', ':']) :: items))
    | p => compactPrimitive delim p

/-- Python `str(o)` for the leaves reached by `_flat` (line 254): `None`,
booleans, numbers and strings; a `float` prints as its full `repr` here
(no trailing-zero stripping).  Containers never reach this line. -/
def pyStr : Value → List Char
  | .null => ("None".data)
  | .bool b => if b then ("True".data) else ("False".data)
  | .int n => intChars n
  | .float r => r
  | .str s => s
  | .arr _ => []
  | .obj _ => []

/-- `_flat` (lines 248-254), the `strict_fallback="compact"` renderer, with
fuel for the Python recursion.  The array branch of the source reads
`",".join(_flat(x) for x in 0)`: it iterates over the integer literal `0`,
which raises `TypeError` for every array, modelled as `none`.  Object
entries are joined with a hard-coded `","`, not the configured delimiter. -/
def flat : Nat → Value → Option (List Char)
  | 0, _ => none
  | fuel + 1, v =>
    match v with
    | .obj kvs =>
      (mapMO (fun (kv : List Char × Value) =>
        (flat fuel kv.2).map (fun fv => kv.1 ++ (':' :: fv))) kvs).map
        (fun parts => List.intercalate [','] parts)
    | .arr _ => none
    | p => some (pyStr p)

/-- JSON string escaping as used by `json.dumps` with `ensure_ascii=False`. -/
def jsonEscapeChar (c : Char) : List Char :=
  if c = '\\' then ['\\', '\\']
  else if c = '"' then ['\\', '"']
  else if c = '\n' then ['\\', 'n']
  else if c = '\r' then ['\\', 'r']
  else if c = '\t' then ['\\', 't']
  else [c]

/-- Models the standard-library `json.dumps(data, ensure_ascii=False)` used
by the `strict_fallback="json"` branch (lines 242-245): a total structural
serialization of the value tree (its exact text is never inspected by the
claims; what matters is that it is defined for every tree). -/
def jsonDumps : Value → List Char
  | .null => ("null".data)
  | .bool b => if b then ("true".data) else ("false".data)
  | .int n => intChars n
  | .float r => r
  | .str s => '"' :: (s.flatMap jsonEscapeChar) ++ ['"']
  | .arr xs =>
    '[' :: List.intercalate [','] (xs.attach.map (fun x => jsonDumps x.1)) ++ [']']
  | .obj kvs =>
    '{' :: List.intercalate [',']
        (kvs.attach.map (fun kv =>
          ('"' :: (kv.1.1.flatMap jsonEscapeChar) ++ ['"', ':']) ++ jsonDumps kv.1.2)) ++ ['}']
decreasing_by
  · have h1 := List.sizeOf_lt_of_mem x.2
    simp only [Value.arr.sizeOf_spec]
    omega
  · have h1 := List.sizeOf_lt_of_mem kv.2
    have h2 : sizeOf kv.1.2 < sizeOf kv.1 := by
      obtain ⟨a, b⟩ := kv.1
      simp only [Prod.mk.sizeOf_spec]
      omega
    simp only [Value.obj.sizeOf_spec]
    omega

/-- The encode-plus-fallback stage of `format` (lines 238-258): try
`_compact`; on failure dispatch on `strict_fallback` — `json` re-renders the
tree with `json.dumps`, `compact` runs `_flat` (whose own failure
propagates), `None` re-raises.  `none` models an error reaching the caller. -/
def formatContent (cfg : FormatOptions) (fb : StrictFallback) (fuel : Nat) (data : Value) :
    Option (List Char) :=
  match compact cfg fuel 0 data with
  | some s => some s
  | none =>
    match fb with
    | .json => some (jsonDumps data)
    | .compactfb => flat fuel data
    | .nofb => none

/-- `TRANSLATE_CHUNK_SIZE` (line 29). -/
def TRANSLATE_CHUNK_SIZE : Nat := 4000

/-- Python `splitlines(keepends=True)` for text whose line breaks are `\n`
(the only line break the encoder emits): every line keeps its trailing
newline, a final segment without a newline is kept as well. -/
def splitKeepends : List Char → List (List Char)
  | [] => []
  | '\n' :: rest => ['\n'] :: splitKeepends rest
  | c :: rest =>
    match splitKeepends rest with
    | [] => [[c]]
    | l :: ls => (c :: l) :: ls

/-- The chunk-accumulation loop of `format` (lines 281-289): `cur` is the
chunk under construction; a line that would push `cur` past the limit
flushes `cur` first (only when `cur` is non-empty), and a non-empty final
`cur` is flushed at the end. -/
def chunkFold : List (List Char) → List Char → List (List Char)
  | [], cur => if cur = [] then [] else [cur]
  | line :: rest, cur =>
    if TRANSLATE_CHUNK_SIZE < cur.length + line.length ∧ cur ≠ [] then
      cur :: chunkFold rest line
    else
      chunkFold rest (cur ++ line)

/-- The chunk-splitting step of `format` (lines 273-289): text within the
limit is a single chunk, otherwise the text is split into line-preserving
chunks. -/
def splitPieces (text : List Char) : List (List Char) :=
  if text.length ≤ TRANSLATE_CHUNK_SIZE then [text]
  else chunkFold (splitKeepends text) []

/-- Options with `key_folding` enabled and the default delimiter and indent. -/
def cfgFold : FormatOptions := { key_folding := true }

/-! ## Theorems -/

/-- C1: the claim states that for every finite acyclic value tree and every
configuration the recursive encoding terminates, and in particular that
encoding the single-key object `a ↦ 1` with key folding enabled terminates.
The code violates this: `_fold_keys` accumulates the key `a` and the guard
`folded_val is not obj` compares the terminal value `1` (not the rebuilt
dict) with the object, so `_compact` re-enters itself on an equal
single-entry object forever.  In the fuel model: no amount of recursion
depth produces a result. -/
theorem c1_key_folding_single_key_never_returns :
    ∀ fuel : Nat, compact cfgFold fuel 0 (Value.obj [(['a'], Value.int 1)]) = none := by
  intro fuel
  induction fuel with
  | zero => rfl
  | succ n ih =>
    have hfc : foldChain (Value.obj [(['a'], Value.int 1)]) = ([['a']], Value.int 1) := by
      simp [foldChain, validIdentifier]
    have hkf : cfgFold.key_folding = true := rfl
    have hic : List.intercalate ['.'] [['a']] = ['a'] := by decide
    simpa [compact, hkf, hfc, hic] using ih

/-- C2: with `strict_fallback="json"`, formatting never raises to the
caller: whatever the compaction traversal does (any options, any fuel, any
value tree), a failure is caught and the whole tree is re-rendered with
`json.dumps`, which is total on value trees. -/
theorem c2_json_fallback_never_raises (cfg : FormatOptions) (fuel : Nat) (data : Value) :
    (formatContent cfg StrictFallback.json fuel data).isSome = true := by
  unfold formatContent
  cases h : compact cfg fuel 0 data <;> simp

/-- C3 (code bug witness): the `strict_fallback="compact"` renderer `_flat`
raises for every array: its array branch iterates over the integer literal
`0` (`for x in 0`), a `TypeError`, modelled as `none` — for any recursion
depth and any array contents, even the empty array. -/
theorem c3_flat_raises_on_every_array (fuel : Nat) (xs : List Value) :
    flat (fuel + 1) (Value.arr xs) = none := rfl

/-- C5 (counterexample): the claim includes the empty string among the
"plain" strings on which the escaping routine is the identity, but the code
explicitly quotes the empty string (`len(s) == 0` forces quoting), returning
a two-character pair of double quotes instead of the empty string. -/
theorem c5_counterexample_empty_string :
    escapeAndQuoteString [','] [] = ['"', '"'] ∧ ¬ (escapeAndQuoteString [','] [] = []) := by
  constructor
  · decide
  · decide

/-- If `pat` does not occur in `c :: rest` it is not a prefix of it and does
not occur in `rest`. -/
theorem containsSub_cons_false {pat : List Char} {c : Char} {rest : List Char}
    (h : containsSub pat (c :: rest) = false) :
    pat.isPrefixOf (c :: rest) = false ∧ containsSub pat rest = false := by
  simpa [containsSub, Bool.or_eq_false_iff] using h

/-- A pattern that does not occur in `s` is non-empty. -/
theorem containsSub_false_ne_nil {pat s : List Char} (h : containsSub pat s = false) :
    pat.isEmpty = false := by
  cases s with
  | nil => simpa [containsSub] using h
  | cons c rest =>
    cases pat with
    | nil => simp [containsSub, List.isPrefixOf] at h
    | cons p ps => rfl

/-- Replacing a pattern that does not occur leaves the text unchanged. -/
theorem pyReplaceAux_not_contained (pat rep : List Char) :
    ∀ (fuel : Nat) (s : List Char), containsSub pat s = false →
      pyReplaceAux pat rep fuel s = s := by
  intro fuel
  induction fuel with
  | zero => intro s _; cases s <;> rfl
  | succ n ih =>
    intro s hs
    cases s with
    | nil => rfl
    | cons c rest =>
      obtain ⟨hp, hrest⟩ := containsSub_cons_false hs
      simp [pyReplaceAux, hp, ih rest hrest]

/-- `s.replace(old, new)` is the identity when `old` does not occur in `s`. -/
theorem pyReplace_not_contained {s pat : List Char} (rep : List Char)
    (h : containsSub pat s = false) : pyReplace s pat rep = s := by
  unfold pyReplace
  rw [containsSub_false_ne_nil h]
  simp [pyReplaceAux_not_contained pat rep s.length s h]

/-- C5 (amended): the escaping/quoting routine is the identity on plain
non-empty strings: if `s` is non-empty, contains neither the delimiter nor
any of colon, newline, carriage return, double quote, backslash, and does
not start or end with a space, then it is returned unchanged.  (The
original claim also included the empty string; the code quotes it, see the
counterexample.) -/
theorem c5_escape_identity_on_plain_nonempty
    (delim s : List Char)
    (hne : s ≠ [])
    (hd : containsSub delim s = false)
    (hc : containsSub [':'] s = false)
    (hn : containsSub ['\n'] s = false)
    (hr : containsSub ['\r'] s = false)
    (hq : containsSub ['"'] s = false)
    (hb : containsSub ['\\'] s = false)
    (hh : s.head? ≠ some ' ')
    (hl : s.getLast? ≠ some ' ') :
    escapeAndQuoteString delim s = s := by
  have hh2 : (s.head? == some ' ') = false := beq_eq_false_iff_ne.mpr hh
  have hl2 : (s.getLast? == some ' ') = false := beq_eq_false_iff_ne.mpr hl
  have hne2 : s.isEmpty = false := by
    cases s with
    | nil => exact absurd rfl hne
    | cons c rest => rfl
  simp [escapeAndQuoteString, pyReplace_not_contained _ hb, pyReplace_not_contained _ hc,
    pyReplace_not_contained _ hd, pyReplace_not_contained _ hn, pyReplace_not_contained _ hr,
    hh2, hl2, hne2, hd, hc, hn, hr, hq, hb]

/-- Witness for C5 (amended) at `delim = ","`, `s = "abc"`. -/
theorem c5_escape_identity_witness :
    escapeAndQuoteString [','] ['a', 'b', 'c'] = ['a', 'b', 'c'] :=
  c5_escape_identity_on_plain_nonempty [','] ['a', 'b', 'c']
    (by decide) (by decide) (by decide) (by decide) (by decide) (by decide)
    (by decide) (by decide) (by decide)

/-- C7: the empty array is never classified tabular, is classified
uniform-primitive, and for every key, delimiter, indent and level renders as
the single line `key[0]: ` (length header, trailing space, no cells); a
top-level empty array renders as `[0]: `. -/
theorem c7_empty_array_uniform_primitive
    (cfg : FormatOptions) (hkf : cfg.key_folding = false) (k : List Char) (level fuel : Nat) :
    isUniformArrayOfObjects [] = false ∧
    isUniformArrayOfPrimitives [] = true ∧
    compact cfg (fuel + 1) level (Value.obj [(k, Value.arr [])]) =
      some (spaces (cfg.indent * level) ++ keyReprF cfg.delimiter k ++ ['[', '0', ']', ':', ' ']) ∧
    compact cfg (fuel + 1) level (Value.arr []) =
      some (spaces (cfg.indent * level) ++ ['[', '0', ']', ':', ' ']) := by
  have h0 : natChars 0 = ['0'] := by decide
  refine ⟨rfl, rfl, ?_, ?_⟩
  · simp [compact, hkf, mapMO, isUniformArrayOfObjects, isUniformArrayOfPrimitives, h0,
      List.intercalate]
  · simp [compact, mapMO, isUniformArrayOfObjects, isUniformArrayOfPrimitives, h0,
      List.intercalate]

/-- Witness for C7 at the default configuration, key `k`, level 0. -/
theorem c7_empty_array_uniform_primitive_witness :
    ({} : FormatOptions).key_folding = false ∧
    compact {} 1 0 (Value.obj [(['k'], Value.arr [])]) =
      some (spaces (({} : FormatOptions).indent * 0) ++ keyReprF ({} : FormatOptions).delimiter ['k'] ++ ['[', '0', ']', ':', ' ']) := by
  exact ⟨rfl, (c7_empty_array_uniform_primitive {} rfl ['k'] 0 0).2.2.1⟩

/-- Concatenating the kept-ends lines of a text restores the text. -/
theorem splitKeepends_flatten : ∀ s : List Char, (splitKeepends s).flatten = s := by
  intro s
  induction s with
  | nil => rfl
  | cons c rest ih =>
    by_cases hc : c = '\n'
    · subst hc; simp [splitKeepends, ih]
    · cases h : splitKeepends rest with
      | nil =>
        have hr : rest = [] := by simpa [h] using ih.symm
        simp [splitKeepends, hc, h, hr]
      | cons l ls =>
        have ih2 : l ++ ls.flatten = rest := by simpa [h] using ih
        simp [splitKeepends, hc, h, ih2]

/-- Every kept-ends line of a text is non-empty. -/
theorem splitKeepends_ne_nil : ∀ s : List Char, ∀ l ∈ splitKeepends s, l ≠ [] := by
  intro s
  induction s with
  | nil => intro l hl; simp [splitKeepends] at hl
  | cons c rest ih =>
    intro l hl
    by_cases hc : c = '\n'
    · subst hc
      simp [splitKeepends] at hl
      rcases hl with h | h
      · subst h; simp
      · exact ih l h
    · cases h : splitKeepends rest with
      | nil =>
        simp [splitKeepends, hc, h] at hl
        subst hl; simp
      | cons g gs =>
        simp [splitKeepends, hc, h] at hl
        rcases hl with h2 | h2
        · subst h2; simp
        · exact ih l (by simp [h, h2])

/-- The chunk loop loses no characters: the chunks concatenate to the
pending chunk followed by the remaining lines. -/
theorem chunkFold_flatten :
    ∀ (lines : List (List Char)) (cur : List Char),
      (chunkFold lines cur).flatten = cur ++ lines.flatten := by
  intro lines
  induction lines with
  | nil =>
    intro cur
    by_cases hc : cur = [] <;> simp [chunkFold, hc]
  | cons line rest ih =>
    intro cur
    by_cases hf : TRANSLATE_CHUNK_SIZE < cur.length + line.length ∧ cur ≠ [] <;>
      simp [chunkFold, hf, ih]

/-- Every chunk is the concatenation of a consecutive group of lines: the
chunk list arises from a partition of the line list (the pending chunk is
the concatenation of the lines already accumulated, all non-empty). -/
theorem chunkFold_groups :
    ∀ (lines : List (List Char)) (curg : List (List Char)),
      (∀ g ∈ curg, g ≠ []) → (∀ l ∈ lines, l ≠ []) →
      ∃ groups : List (List (List Char)),
        groups.map List.flatten = chunkFold lines curg.flatten ∧
        groups.flatten = curg ++ lines := by
  intro lines
  induction lines with
  | nil =>
    intro curg hcur _
    cases curg with
    | nil => exact ⟨[], by simp [chunkFold], by simp⟩
    | cons g gs =>
      have hg : g ≠ [] := hcur g (by simp)
      have hne : (g :: gs).flatten ≠ [] := by
        cases g with
        | nil => exact absurd rfl hg
        | cons a as => simp
      exact ⟨[g :: gs], by rw [chunkFold, if_neg hne]; simp, by simp⟩
  | cons line rest ih =>
    intro curg hcur hlines
    have hline : line ≠ [] := hlines line (by simp)
    by_cases hf : TRANSLATE_CHUNK_SIZE < curg.flatten.length + line.length ∧
        curg.flatten ≠ []
    · obtain ⟨groups2, hm, hfl⟩ := ih [line] (by simpa using hline)
        (fun l hl => hlines l (by simp [hl]))
      refine ⟨curg :: groups2, ?_, ?_⟩
      · rw [List.map_cons, chunkFold, if_pos hf, hm]
        simp
      · simp [hfl]
    · obtain ⟨groups2, hm, hfl⟩ := ih (curg ++ [line])
        (by
          intro g hg
          rcases List.mem_append.mp hg with h | h
          · exact hcur g h
          · have : g = line := by simpa using h
            exact this ▸ hline)
        (fun l hl => hlines l (by simp [hl]))
      refine ⟨groups2, ?_, ?_⟩
      · rw [chunkFold, if_neg hf]
        simpa using hm
      · simpa using hfl

/-- A chunk longer than the limit is one of the lines (or the pending
chunk): the loop only grows a chunk past the limit when the chunk was
empty and a single line exceeded the limit on its own. -/
theorem chunkFold_oversize :
    ∀ (lines : List (List Char)) (cur : List Char),
      ∀ p ∈ chunkFold lines cur, TRANSLATE_CHUNK_SIZE < p.length →
        p ∈ lines ∨ p = cur := by
  intro lines
  induction lines with
  | nil =>
    intro cur p hp _
    by_cases hc : cur = []
    · simp [chunkFold, hc] at hp
    · simp [chunkFold, hc] at hp
      exact Or.inr hp
  | cons line rest ih =>
    intro cur p hp hlong
    by_cases hf : TRANSLATE_CHUNK_SIZE < cur.length + line.length ∧ cur ≠ []
    · rw [chunkFold, if_pos hf] at hp
      rcases List.mem_cons.mp hp with h | h
      · exact Or.inr h
      · rcases ih line p h hlong with h2 | h2
        · exact Or.inl (by simp [h2])
        · exact Or.inl (by simp [h2])
    · rw [chunkFold, if_neg hf] at hp
      rcases ih (cur ++ line) p hp hlong with h2 | h2
      · exact Or.inl (by simp [h2])
      · rcases not_and_or.mp hf with h3 | h3
        · have hle : cur.length + line.length ≤ TRANSLATE_CHUNK_SIZE := Nat.not_lt.mp h3
          have hpl : p.length = cur.length + line.length := by simp [h2]
          omega
        · have hce : cur = [] := not_not.mp h3
          exact Or.inl (by simp [h2, hce])

/-- C9: for every text longer than the 4000-character chunk limit, the
chunk split of `format` (lines 273-289) concatenates back to the original
text, every chunk is the concatenation of a consecutive group of the
text's kept-ends lines (so chunk boundaries fall on line boundaries), and
any chunk exceeding the limit is a single (over-long) line of the text. -/
theorem c9_chunk_split_line_preserving (t : List Char)
    (h : TRANSLATE_CHUNK_SIZE < t.length) :
    (splitPieces t).flatten = t ∧
    (∃ groups : List (List (List Char)),
      groups.map List.flatten = splitPieces t ∧
      groups.flatten = splitKeepends t) ∧
    (∀ p ∈ splitPieces t, TRANSLATE_CHUNK_SIZE < p.length → p ∈ splitKeepends t) := by
  have hsp : splitPieces t = chunkFold (splitKeepends t) [] := by
    unfold splitPieces
    rw [if_neg (by omega)]
  refine ⟨?_, ?_, ?_⟩
  · rw [hsp, chunkFold_flatten]
    simpa using splitKeepends_flatten t
  · obtain ⟨groups, hm, hfl⟩ :=
      chunkFold_groups (splitKeepends t) [] (by simp) (splitKeepends_ne_nil t)
    exact ⟨groups, by simpa [hsp] using hm, by simpa using hfl⟩
  · intro p hp hlong
    rw [hsp] at hp
    rcases chunkFold_oversize (splitKeepends t) [] p hp hlong with h2 | h2
    · exact h2
    · subst h2; simp at hlong

/-- Witness for C9 at a text of 4001 identical characters. -/
theorem c9_chunk_split_witness :
    TRANSLATE_CHUNK_SIZE < (List.replicate 4001 'a').length ∧
    ((splitPieces (List.replicate 4001 'a')).flatten = List.replicate 4001 'a' ∧
      (∃ groups : List (List (List Char)),
        groups.map List.flatten = splitPieces (List.replicate 4001 'a') ∧
        groups.flatten = splitKeepends (List.replicate 4001 'a')) ∧
      (∀ p ∈ splitPieces (List.replicate 4001 'a'),
        TRANSLATE_CHUNK_SIZE < p.length → p ∈ splitKeepends (List.replicate 4001 'a'))) := by
  have h : TRANSLATE_CHUNK_SIZE < (List.replicate 4001 'a').length := by
    rw [List.length_replicate]
    norm_num [TRANSLATE_CHUNK_SIZE]
  exact ⟨h, c9_chunk_split_line_preserving (List.replicate 4001 'a') h⟩

/-- `mapMO` over a one-element list. -/
theorem mapMO_singleton (f : α → Option β) (a : α) :
    mapMO f [a] = (f a).map (fun b => [b]) := by
  cases h : f a <;> simp [mapMO, h]

/-- A key occurring among the keys of an association list is found by
`List.lookup`, and the value found is one of the stored values. -/
theorem lookup_of_mem_keys {k : List Char} :
    ∀ {kvs : List (List Char × Value)}, k ∈ kvs.map Prod.fst →
      ∃ v, List.lookup k kvs = some v ∧ v ∈ kvs.map Prod.snd := by
  intro kvs
  induction kvs with
  | nil => intro h; simp at h
  | cons kv rest ih =>
    intro h
    obtain ⟨k1, v1⟩ := kv
    by_cases he : k = k1
    · exact ⟨v1, by simp [List.lookup, he], by simp⟩
    · have h2 : k ∈ rest.map Prod.fst := by
        simp only [List.map_cons, List.mem_cons] at h
        rcases h with h3 | h3
        · exact absurd h3 he
        · exact h3
      obtain ⟨v, hv, hvm⟩ := ih h2
      exact ⟨v, by simp [List.lookup, beq_eq_false_iff_ne.mpr he, hv], by simp [hvm]⟩

/-- A primitive value always renders. -/
theorem compactPrimitive_isSome {pv : Value} (delim : List Char)
    (hp : isPrimitive pv = true) : ∃ t, compactPrimitive delim pv = some t := by
  cases pv with
  | arr xs => simp [isPrimitive] at hp
  | obj kvs => simp [isPrimitive] at hp
  | null => exact ⟨_, rfl⟩
  | bool b => exact ⟨_, rfl⟩
  | int n => exact ⟨_, rfl⟩
  | float r => exact ⟨_, rfl⟩
  | str s => exact ⟨_, rfl⟩

/-- If every field is present in an item with a primitive value, the row
cells all render, one cell per field. -/
theorem tabular_cells_some (delim : List Char) (item : Value) :
    ∀ (fields : List (List Char)),
      (∀ f ∈ fields, ∃ pv, getKey item f = some pv ∧ isPrimitive pv = true) →
      ∃ cells, mapMO (fun f => (getKey item f).bind (compactPrimitive delim)) fields =
        some cells ∧ cells.length = fields.length := by
  intro fields
  induction fields with
  | nil => intro _; exact ⟨[], rfl, rfl⟩
  | cons f fs ih =>
    intro hmem
    obtain ⟨pv, hg, hp⟩ := hmem f (by simp)
    obtain ⟨t, ht⟩ := compactPrimitive_isSome delim hp
    obtain ⟨cells, hc, hl⟩ := ih (fun f2 h2 => hmem f2 (by simp [h2]))
    exact ⟨t :: cells, by simp [mapMO, hg, ht, hc], by simp [hl]⟩

/-- A uniform item (a dict whose key set matches the field list and whose
values are all primitive) has every field present with a primitive value. -/
theorem tabular_item_fields {item : Value} {fields : List (List Char)}
    (hd : isDict item = true)
    (hk : setEq (keysOf item) fields = true)
    (hp : (valuesOf item).all isPrimitive = true) :
    ∀ f ∈ fields, ∃ pv, getKey item f = some pv ∧ isPrimitive pv = true := by
  intro f hf
  cases item with
  | obj kvs =>
    have hsub : ∀ x ∈ fields, (keysOf (Value.obj kvs)).contains x = true := by
      have := (Bool.and_eq_true_iff.mp hk).2
      simpa [List.all_eq_true] using this
    have hmem : f ∈ (keysOf (Value.obj kvs)) := by
      have := hsub f hf
      simpa using this
    obtain ⟨v, hv, hvm⟩ := lookup_of_mem_keys (by simpa [keysOf] using hmem)
    refine ⟨v, by simpa [getKey] using hv, ?_⟩
    have := List.all_eq_true.mp hp v (by simpa [valuesOf] using hvm)
    simpa using this
  | null => simp [isDict] at hd
  | bool b => simp [isDict] at hd
  | int n => simp [isDict] at hd
  | float r => simp [isDict] at hd
  | str s => simp [isDict] at hd
  | arr xs => simp [isDict] at hd

/-- If every item's cells render, the row list renders: one row per item,
each row the indented delimiter-join of its cells. -/
theorem tabular_rows_some (delim ind1 : List Char) (fields : List (List Char)) :
    ∀ (xs : List Value),
      (∀ item ∈ xs,
        ∃ cells, mapMO (fun f => (getKey item f).bind (compactPrimitive delim)) fields =
          some cells ∧ cells.length = fields.length) →
      ∃ cellss : List (List (List Char)),
        mapMO (fun item =>
          (mapMO (fun f => (getKey item f).bind (compactPrimitive delim)) fields).map
            (fun cells => ind1 ++ List.intercalate delim cells)) xs =
          some (cellss.map (fun cs => ind1 ++ List.intercalate delim cs)) ∧
        cellss.length = xs.length ∧ ∀ cs ∈ cellss, cs.length = fields.length := by
  intro xs
  induction xs with
  | nil => intro _; exact ⟨[], rfl, rfl, by simp⟩
  | cons item rest ih =>
    intro hall
    obtain ⟨cells, hc, hl⟩ := hall item (by simp)
    obtain ⟨cellss, hm, hlen, hcs⟩ := ih (fun it h2 => hall it (by simp [h2]))
    refine ⟨cells :: cellss, ?_, by simp [hlen], ?_⟩
    · simp [mapMO, hc, hm]
    · intro cs hcsm
      rcases List.mem_cons.mp hcsm with h2 | h2
      · exact h2 ▸ hl
      · exact hcs cs h2

/-- The classifier accepts a non-empty array of dicts with equal key sets
and all-primitive values. -/
theorem isUniformArrayOfObjects_of (x0 : Value) (rest : List Value)
    (hobj : ∀ x ∈ x0 :: rest, isDict x = true)
    (hkeys : ∀ x ∈ x0 :: rest, setEq (keysOf x) (keysOf x0) = true)
    (hprim : ∀ x ∈ x0 :: rest, (valuesOf x).all isPrimitive = true) :
    isUniformArrayOfObjects (x0 :: rest) = true := by
  have h1 : ((x0 :: rest).all isDict) = true := List.all_eq_true.mpr (by
    intro x hx; simpa using hobj x hx)
  have h2 : ((x0 :: rest).any (fun y => !(setEq (keysOf y) (keysOf x0)))) = false := by
    rw [List.any_eq_false]
    intro x hx
    simp [hkeys x hx]
  have h3 : ((x0 :: rest).all (fun item => (valuesOf item).all isPrimitive)) = true :=
    List.all_eq_true.mpr (by intro x hx; simpa using hprim x hx)
  simp [isUniformArrayOfObjects, h1, h2, h3]

/-- The full keyed tabular rendering equation (lines 166-176 of the
source): header with brace-wrapped comma-joined field names and no
trailing colon, then one indented row of delimiter-joined cells per item. -/
theorem tabular_render (cfg : FormatOptions) (hkf : cfg.key_folding = false)
    (k : List Char) (x0 : Value) (rest : List Value) (level fuel : Nat)
    (hobj : ∀ x ∈ x0 :: rest, isDict x = true)
    (hkeys : ∀ x ∈ x0 :: rest, setEq (keysOf x) (keysOf x0) = true)
    (hprim : ∀ x ∈ x0 :: rest, (valuesOf x).all isPrimitive = true) :
    ∃ cellss : List (List (List Char)),
      cellss.length = (x0 :: rest).length ∧
      (∀ cs ∈ cellss, cs.length = (keysOf x0).length) ∧
      compact cfg (fuel + 1) level (Value.obj [(k, Value.arr (x0 :: rest))]) =
        some (List.intercalate ['\n']
          ((spaces (cfg.indent * level) ++ keyReprF cfg.delimiter k
              ++ ('[' :: natChars (x0 :: rest).length)
              ++ (']' :: '{' :: List.intercalate [','] (keysOf x0)) ++ ['}'])
            :: cellss.map (fun cs =>
                spaces (cfg.indent * (level + 1)) ++ List.intercalate cfg.delimiter cs))) := by
  have huo := isUniformArrayOfObjects_of x0 rest hobj hkeys hprim
  obtain ⟨cellss, hm, hlen, hcs⟩ :=
    tabular_rows_some cfg.delimiter (spaces (cfg.indent * (level + 1))) (keysOf x0)
      (x0 :: rest)
      (fun item hit =>
        tabular_cells_some cfg.delimiter item (keysOf x0)
          (tabular_item_fields (hobj item hit) (hkeys item hit) (hprim item hit)))
  refine ⟨cellss, hlen, hcs, ?_⟩
  simp [compact, hkf, mapMO_singleton, huo, hm]

/-- C4: for every non-empty array of objects sharing an identical key set
(in the first element's key order) in which every value is primitive,
rendered under a key, the engine emits the tabular header
`name[length]` followed by the brace-wrapped field list, then exactly
`length` rows, each consisting of exactly `len(fields)` delimiter-joined
cells at one extra indent level. -/
theorem c4_uniform_object_array_tabular (cfg : FormatOptions)
    (hkf : cfg.key_folding = false)
    (k : List Char) (x0 : Value) (rest : List Value) (level fuel : Nat)
    (hobj : ∀ x ∈ x0 :: rest, isDict x = true)
    (hkeys : ∀ x ∈ x0 :: rest, setEq (keysOf x) (keysOf x0) = true)
    (hprim : ∀ x ∈ x0 :: rest, (valuesOf x).all isPrimitive = true) :
    ∃ rows : List (List Char),
      compact cfg (fuel + 1) level (Value.obj [(k, Value.arr (x0 :: rest))]) =
        some (List.intercalate ['\n']
          ((spaces (cfg.indent * level) ++ keyReprF cfg.delimiter k
              ++ ('[' :: natChars (x0 :: rest).length)
              ++ (']' :: '{' :: List.intercalate [','] (keysOf x0)) ++ ['}'])
            :: rows)) ∧
      rows.length = (x0 :: rest).length ∧
      ∀ row ∈ rows, ∃ cells : List (List Char),
        cells.length = (keysOf x0).length ∧
        row = spaces (cfg.indent * (level + 1)) ++ List.intercalate cfg.delimiter cells := by
  obtain ⟨cellss, hlen, hcs, heq⟩ :=
    tabular_render cfg hkf k x0 rest level fuel hobj hkeys hprim
  refine ⟨cellss.map (fun cs =>
      spaces (cfg.indent * (level + 1)) ++ List.intercalate cfg.delimiter cs),
    heq, by simp [hlen], ?_⟩
  intro row hrow
  obtain ⟨cs, hcsm, hcseq⟩ := List.mem_map.mp hrow
  exact ⟨cs, hcs cs hcsm, hcseq.symm⟩

/-- Witness for C4: the two-element `users`-style array
`[ (a ↦ 1), (a ↦ 2) ]` under key `u`, default options, level 0. -/
theorem c4_uniform_object_array_tabular_witness :
    ({} : FormatOptions).key_folding = false ∧
    (∀ x ∈ [Value.obj [(['a'], Value.int 1)], Value.obj [(['a'], Value.int 2)]],
      isDict x = true) ∧
    (∃ rows : List (List Char),
      compact {} 1 0 (Value.obj [(['u'],
          Value.arr [Value.obj [(['a'], Value.int 1)], Value.obj [(['a'], Value.int 2)]])]) =
        some (List.intercalate ['\n']
          ((spaces (({} : FormatOptions).indent * 0) ++ keyReprF ({} : FormatOptions).delimiter ['u']
              ++ ('[' :: natChars ([Value.obj [(['a'], Value.int 1)], Value.obj [(['a'], Value.int 2)]]).length)
              ++ (']' :: '{' :: List.intercalate [','] (keysOf (Value.obj [(['a'], Value.int 1)]))) ++ ['}'])
            :: rows)) ∧
      rows.length = ([Value.obj [(['a'], Value.int 1)], Value.obj [(['a'], Value.int 2)]]).length ∧
      ∀ row ∈ rows, ∃ cells : List (List Char),
        cells.length = (keysOf (Value.obj [(['a'], Value.int 1)])).length ∧
        row = spaces (({} : FormatOptions).indent * (0 + 1)) ++
          List.intercalate ({} : FormatOptions).delimiter cells) := by
  refine ⟨rfl, by decide, ?_⟩
  exact c4_uniform_object_array_tabular {} rfl ['u'] (Value.obj [(['a'], Value.int 1)])
    [Value.obj [(['a'], Value.int 2)]] 0 0 (by decide) (by decide) (by decide)

/-- C10: in keyed tabular rendering the field names inside the brace header
are joined with a literal comma while the data cells of every row are
joined with the configured delimiter, whatever that delimiter is — the
rendering equation exhibits `','` for the header and `cfg.delimiter` for
the rows. -/
theorem c10_header_comma_rows_delimiter (cfg : FormatOptions)
    (hkf : cfg.key_folding = false)
    (k : List Char) (x0 : Value) (rest : List Value) (level fuel : Nat)
    (hobj : ∀ x ∈ x0 :: rest, isDict x = true)
    (hkeys : ∀ x ∈ x0 :: rest, setEq (keysOf x) (keysOf x0) = true)
    (hprim : ∀ x ∈ x0 :: rest, (valuesOf x).all isPrimitive = true) :
    ∃ cellss : List (List (List Char)),
      compact cfg (fuel + 1) level (Value.obj [(k, Value.arr (x0 :: rest))]) =
        some (List.intercalate ['\n']
          ((spaces (cfg.indent * level) ++ keyReprF cfg.delimiter k
              ++ ('[' :: natChars (x0 :: rest).length)
              ++ (']' :: '{' :: List.intercalate [','] (keysOf x0)) ++ ['}'])
            :: cellss.map (fun cs =>
                spaces (cfg.indent * (level + 1)) ++ List.intercalate cfg.delimiter cs))) := by
  obtain ⟨cellss, _, _, heq⟩ :=
    tabular_render cfg hkf k x0 rest level fuel hobj hkeys hprim
  exact ⟨cellss, heq⟩

/-- Witness for C10 at the non-comma delimiter `|`: the header keeps the
comma, the rows use the pipe. -/
theorem c10_header_comma_rows_delimiter_witness :
    ({ delimiter := ['|'] } : FormatOptions).key_folding = false ∧
    ({ delimiter := ['|'] } : FormatOptions).delimiter ≠ [','] ∧
    (∃ cellss : List (List (List Char)),
      compact { delimiter := ['|'] } 1 0 (Value.obj [(['u'],
          Value.arr [Value.obj [(['a'], Value.int 1), (['b'], Value.int 2)]])]) =
        some (List.intercalate ['\n']
          ((spaces (({ delimiter := ['|'] } : FormatOptions).indent * 0)
              ++ keyReprF ({ delimiter := ['|'] } : FormatOptions).delimiter ['u']
              ++ ('[' :: natChars ([Value.obj [(['a'], Value.int 1), (['b'], Value.int 2)]]).length)
              ++ (']' :: '{' :: List.intercalate [',']
                    (keysOf (Value.obj [(['a'], Value.int 1), (['b'], Value.int 2)]))) ++ ['}'])
            :: cellss.map (fun cs =>
                spaces (({ delimiter := ['|'] } : FormatOptions).indent * (0 + 1)) ++
                  List.intercalate ({ delimiter := ['|'] } : FormatOptions).delimiter cs)))) := by
  refine ⟨rfl, by decide, ?_⟩
  exact c10_header_comma_rows_delimiter { delimiter := ['|'] } rfl ['u']
    (Value.obj [(['a'], Value.int 1), (['b'], Value.int 2)]) [] 0 0
    (by decide) (by decide) (by decide)

/-- A successful `mapMO` yields one output per input. -/
theorem mapMO_length_of_some {f : α → Option β} :
    ∀ {l : List α} {l2 : List β}, mapMO f l = some l2 → l2.length = l.length := by
  intro l
  induction l with
  | nil =>
    intro l2 h
    simp [mapMO] at h
    simp [h]
  | cons a rest ih =>
    intro l2 h
    cases hf : f a with
    | none => simp [mapMO, hf] at h
    | some b =>
      cases hr : mapMO f rest with
      | none => simp [mapMO, hf, hr] at h
      | some bs =>
        simp [mapMO, hf, hr] at h
        simp [← h, ih hr]

/-- Every output of a successful `mapMO` comes from some input. -/
theorem mapMO_mem_of_some {f : α → Option β} :
    ∀ {l : List α} {l2 : List β}, mapMO f l = some l2 →
      ∀ b ∈ l2, ∃ a ∈ l, f a = some b := by
  intro l
  induction l with
  | nil =>
    intro l2 h b hb
    simp [mapMO] at h
    rw [h] at hb
    simp at hb
  | cons a rest ih =>
    intro l2 h b hb
    cases hf : f a with
    | none => simp [mapMO, hf] at h
    | some b0 =>
      cases hr : mapMO f rest with
      | none => simp [mapMO, hf, hr] at h
      | some bs =>
        simp [mapMO, hf, hr] at h
        rw [← h] at hb
        rcases List.mem_cons.mp hb with h2 | h2
        · exact ⟨a, by simp, by simp [hf, h2]⟩
        · obtain ⟨a2, ha2, hfa2⟩ := ih hr b h2
          exact ⟨a2, by simp [ha2], hfa2⟩

/-- A digit character is a digit. -/
theorem digitChar_isDigit {d : Nat} (h : d < 10) : (digitChar d).isDigit = true := by
  interval_cases d <;> decide

/-- Every character of a decimal rendering is a digit. -/
theorem natCharsAux_digits :
    ∀ (fuel n : Nat), ∀ c ∈ natCharsAux fuel n, c.isDigit = true := by
  intro fuel
  induction fuel with
  | zero => intro n c hc; simp [natCharsAux] at hc
  | succ m ih =>
    intro n c hc
    by_cases hn : n < 10
    · simp [natCharsAux, hn] at hc
      exact hc ▸ digitChar_isDigit hn
    · simp [natCharsAux, hn] at hc
      rcases hc with hc | hc
      · exact ih (n / 10) c hc
      · exact hc ▸ digitChar_isDigit (Nat.mod_lt _ (by norm_num))

/-- A valid identifier contains no left brace. -/
theorem validIdentifier_no_left_brace {k : List Char}
    (h : validIdentifier k = true) : '{' ∉ k := by
  intro hmem
  cases k with
  | nil => simp [validIdentifier] at h
  | cons c rest =>
    simp [validIdentifier] at h
    rcases List.mem_cons.mp hmem with h2 | h2
    · rw [← h2] at h
      exact absurd h.1.1 (by decide)
    · exact absurd (h.1.2 '{' h2) (by decide)

/-- C6 (counterexample): the claim says a mixed array's emitted block never
contains a brace-wrapped tabular header on any line, including lines
produced by recursion; but recursion into a non-primitive element that
itself holds a uniform object array emits a nested tabular header.  Here
the mixed array `[null, (t ↦ [ (a ↦ 1) ])]` under key `k` produces a block
containing the header text `t[1]` followed by `a` in braces. -/
theorem c6_counterexample_nested_tabular_header :
    isPrimitive (Value.obj [(['t'], Value.arr [Value.obj [(['a'], Value.int 1)]])]) = false ∧
    isUniformArrayOfObjects
      [Value.null, Value.obj [(['t'], Value.arr [Value.obj [(['a'], Value.int 1)]])]] = false ∧
    containsSub ['{', 'a', '}']
      ((compact {} 5 0 (Value.obj [(['k'], Value.arr [Value.null,
        Value.obj [(['t'], Value.arr [Value.obj [(['a'], Value.int 1)]])]])])).getD []) = true := by
  refine ⟨rfl, rfl, ?_⟩
  decide

/-- C6 (amended): a mixed array (one with a non-primitive element that is
not part of a uniform object array) is itself never rendered tabularly:
its block is the plain length header `key[n]:` — a line containing no
brace — followed by exactly one dash-prefixed line per element; tabular
headers can still appear inside text recursed from non-primitive
elements. -/
theorem c6_mixed_array_not_rendered_tabular (cfg : FormatOptions)
    (hkf : cfg.key_folding = false) (k : List Char) (hk : validIdentifier k = true)
    (xs : List Value) (level fuel : Nat)
    (hmix : ∃ el ∈ xs, isPrimitive el = false)
    (hnuo : isUniformArrayOfObjects xs = false)
    (s : List Char)
    (hs : compact cfg (fuel + 1) level (Value.obj [(k, Value.arr xs)]) = some s) :
    ∃ items : List (List Char),
      s = List.intercalate ['\n']
        ((spaces (cfg.indent * level) ++ k ++ ('[' :: natChars xs.length) ++ [']', ':'])
          :: items) ∧
      items.length = xs.length ∧
      (∀ it ∈ items,
        (spaces (cfg.indent * (level + 1)) ++ ['-', ' ']).isPrefixOf it = true) ∧
      '{' ∉ (spaces (cfg.indent * level) ++ k ++ ('[' :: natChars xs.length) ++ [']', ':']) := by
  have hnup : isUniformArrayOfPrimitives xs = false := by
    obtain ⟨el, helm, help⟩ := hmix
    unfold isUniformArrayOfPrimitives
    cases hq : xs.all isPrimitive
    · rfl
    · exact absurd (List.all_eq_true.mp hq el helm) (by simp [help])
  have hkr : keyReprF cfg.delimiter k = k := by simp [keyReprF, hk]
  simp only [compact, hkf, Bool.false_eq_true, if_false, mapMO_singleton, hnuo, hnup] at hs
  cases hF : mapMO (fun el =>
      if isPrimitive el = true then
        (compactPrimitive cfg.delimiter el).map
          (fun t => spaces (cfg.indent * (level + 1)) ++ ('-' :: ' ' :: t))
      else
        (compact cfg fuel (level + 2) el).map
          (fun t => spaces (cfg.indent * (level + 1)) ++ ('-' :: ' ' :: t))) xs with
  | none => rw [hF] at hs; simp at hs
  | some items =>
    rw [hF] at hs
    simp [hkr] at hs
    refine ⟨items, by rw [← hs]; simp, mapMO_length_of_some hF, ?_, ?_⟩
    · intro it hit
      obtain ⟨el, _, hfel⟩ := mapMO_mem_of_some hF it hit
      by_cases hp : isPrimitive el = true
      · rw [if_pos hp] at hfel
        cases hcp : compactPrimitive cfg.delimiter el with
        | none => rw [hcp] at hfel; simp at hfel
        | some t =>
          rw [hcp] at hfel
          simp at hfel
          rw [← hfel]
          simp [List.isPrefixOf_iff_prefix, List.append_assoc]
      · rw [if_neg hp] at hfel
        cases hcp : compact cfg fuel (level + 2) el with
        | none => rw [hcp] at hfel; simp at hfel
        | some t =>
          rw [hcp] at hfel
          simp at hfel
          rw [← hfel]
          simp [List.isPrefixOf_iff_prefix, List.append_assoc]
    · intro hmem
      rcases List.mem_append.mp hmem with h2 | h2
      · rcases List.mem_append.mp h2 with h3 | h3
        · rcases List.mem_append.mp h3 with h4 | h4
          · have := List.eq_of_mem_replicate h4
            simp at this
          · exact validIdentifier_no_left_brace hk h4
        · rcases List.mem_cons.mp h3 with h4 | h4
          · simp at h4
          · have := natCharsAux_digits (xs.length + 1) xs.length _ h4
            simp at this
      · simp at h2

/-- Witness for C6 (amended) at the mixed array `[1, []]` under key `i`,
default options: the block is the dash form, its header brace-free. -/
theorem c6_mixed_array_not_rendered_tabular_witness :
    validIdentifier ['i'] = true ∧
    (∃ el ∈ [Value.int 1, Value.arr []], isPrimitive el = false) ∧
    isUniformArrayOfObjects [Value.int 1, Value.arr []] = false ∧
    compact {} 2 0 (Value.obj [(['i'], Value.arr [Value.int 1, Value.arr []])]) =
      some (("i[2]:\n  - 1\n  -     [0]: ").data) ∧
    (∃ items : List (List Char),
      ("i[2]:\n  - 1\n  -     [0]: ").data = List.intercalate ['\n']
        ((spaces (({} : FormatOptions).indent * 0) ++ ['i']
            ++ ('[' :: natChars ([Value.int 1, Value.arr []]).length) ++ [']', ':'])
          :: items) ∧
      items.length = ([Value.int 1, Value.arr []]).length ∧
      (∀ it ∈ items,
        (spaces (({} : FormatOptions).indent * (0 + 1)) ++ ['-', ' ']).isPrefixOf it = true) ∧
      '{' ∉ (spaces (({} : FormatOptions).indent * 0) ++ ['i']
          ++ ('[' :: natChars ([Value.int 1, Value.arr []]).length) ++ [']', ':'])) := by
  refine ⟨by decide, by decide, rfl, by decide, ?_⟩
  exact c6_mixed_array_not_rendered_tabular {} rfl ['i'] (by decide)
    [Value.int 1, Value.arr []] 0 1 (by decide) rfl _ (by decide)

end Toon
